import Mathlib

/-!
Shallow embedding of the subtitle-pipeline core of VideoTranSrt
(`src/native/libs/core`): the `Segment` data model, the timing-correction
passes of the three formatters (`output_formats.cpp`), the greedy segment
merger and SRT time formatting (`google_translator.cpp`), and the batch
grouper and batched translation driver (`openai_translator.cpp`).

Times are modelled as rationals (the C++ uses `double`; every operation the
claims touch is comparison, addition and truncating division by constants,
which agree with exact arithmetic). Strings are Lean `String`s; C++
`std::string::size()` (bytes) is modelled by `utf8Len`, the summed UTF-8
byte size of the characters.
-/

namespace V2S

/-- The `Segment` struct from `models.hpp`: start/end seconds, text, optional
language tag and optional confidence. `stop` models the C++ field `end`
(a Lean keyword). -/
structure Segment where
  start : ℚ
  stop : ℚ
  text : String
  language : Option String := none
  confidence : Option ℚ := none
  deriving Repr, DecidableEq

/-- A value-initialized C++ `Segment` (as produced by `vector::resize`):
zeroed times, empty text, empty optionals. -/
instance : Inhabited Segment := ⟨⟨0, 0, "", none, none⟩⟩

/-- Models `std::isspace` in the default locale, on the characters that can occur
in the byte range it accepts. -/
def isCppSpace (c : Char) : Bool :=
  c = ' ' || c = '\t' || c = '\n' || c = '\x0b' || c = '\x0c' || c = '\r'

/-- The formatters' trim idiom: erase leading and trailing `isspace`
characters (`output_formats.cpp`, repeated at each use site). -/
def cppTrim (s : String) : String :=
  ⟨((s.data.dropWhile isCppSpace).reverse.dropWhile isCppSpace).reverse⟩

/-- Summed UTF-8 byte size: models C++ `std::string::size()`. -/
def utf8Len (s : String) : ℕ :=
  (s.data.map Char.utf8Size).sum

/-- Models `static_cast<int>` of a non-negative `double`: truncation, which on
non-negative values is the floor. All casts in the time formatters are
applied to non-negative values. -/
def ratFloorNat (q : ℚ) : ℕ :=
  (⌊q⌋).toNat

/-- Models `std::setw(2)` with fill `'0'` on a non-negative int. -/
def pad2 (n : ℕ) : String :=
  if n < 10 then "0" ++ Nat.repr n else Nat.repr n

/-- Models `std::setw(3)` with fill `'0'` on a non-negative int. -/
def pad3 (n : ℕ) : String :=
  if n < 10 then "00" ++ Nat.repr n
  else if n < 100 then "0" ++ Nat.repr n
  else Nat.repr n

/-- Models `format_srt_time` (`google_translator.cpp`): clamp to 0, split into
H/M/S/ms, emit `HH:MM:SS,mmm` with 2/2/2/3 zero-padding. -/
def format_srt_time (seconds : ℚ) : String :=
  let s := if seconds < 0 then 0 else seconds
  let hours := ratFloorNat (s / 3600)
  let minutes := ratFloorNat ((s - hours * 3600) / 60)
  let rem := s - hours * 3600 - minutes * 60
  let secs := ratFloorNat rem
  let ms := ratFloorNat ((rem - secs) * 1000)
  pad2 hours ++ ":" ++ pad2 minutes ++ ":" ++ pad2 secs ++ "," ++ pad3 ms

/-- Models `WebVTTFormatter::format_vtt_time`: like SRT but with a dot before the
milliseconds. -/
def format_vtt_time (seconds : ℚ) : String :=
  let s := if seconds < 0 then 0 else seconds
  let hours := ratFloorNat (s / 3600)
  let minutes := ratFloorNat ((s - hours * 3600) / 60)
  let rem := s - hours * 3600 - minutes * 60
  let secs := ratFloorNat rem
  let ms := ratFloorNat ((rem - secs) * 1000)
  pad2 hours ++ ":" ++ pad2 minutes ++ ":" ++ pad2 secs ++ "." ++ pad3 ms

/-- Models `ASSFormatter::format_ass_time`: centiseconds, hours NOT zero-padded
(the C++ `setw` applies only to the output item that follows it, and no
width is set before `hours`). -/
def format_ass_time (seconds : ℚ) : String :=
  let s := if seconds < 0 then 0 else seconds
  let hours := ratFloorNat (s / 3600)
  let minutes := ratFloorNat ((s - hours * 3600) / 60)
  let rem := s - hours * 3600 - minutes * 60
  let secs := ratFloorNat rem
  let centis := ratFloorNat ((rem - secs) * 100)
  Nat.repr hours ++ ":" ++ pad2 minutes ++ ":" ++ pad2 secs ++ "." ++ pad2 centis

/-- Models `ass_escape_text` (`output_formats.cpp`): each `'\n'` or `'\r'` becomes
the literal two-character sequence `\N`; other characters pass through. -/
def ass_escape_text (text : String) : String :=
  text.data.foldl (fun out c => if c = '\n' || c = '\r' then out ++ "\\N" else out.push c) ""

/-- The normalize-and-filter loop at the head of
`SRTFormatter::fix_segment_timing`: drop segments whose trimmed text is
empty, keep the trimmed text, clamp negative `start` and `end` to 0. -/
def srtNormalizeFilter (segments : List Segment) : List Segment :=
  segments.filterMap fun seg =>
    let trimmed := cppTrim seg.text
    if trimmed = "" then none
    else some { seg with
                  text := trimmed,
                  start := if seg.start < 0 then 0 else seg.start,
                  stop := if seg.stop < 0 then 0 else seg.stop }

/-- Models `std::sort` by `a.start < b.start`: modelled by insertion sort on
`start ≤ start`, which returns one of the permutations `std::sort` is
allowed to return (sorted by non-decreasing `start`). -/
def sortByStart (l : List Segment) : List Segment :=
  l.insertionSort fun a b => a.start ≤ b.start

/-- The final loop of `SRTFormatter::fix_segment_timing`: track `last_end`,
shift an overlapping `start` forward, repair `end <= start`, then enforce
the minimum duration. -/
def srtOverlapPass (minDuration : ℚ) : ℚ → List Segment → List Segment
  | _, [] => []
  | lastEnd, seg :: rest =>
      let s1 := if seg.start < lastEnd then lastEnd else seg.start
      let s2 := if seg.stop ≤ s1 then s1 + minDuration else seg.stop
      let s3 := if s2 - s1 < minDuration then s1 + minDuration else s2
      { seg with start := s1, stop := s3 } :: srtOverlapPass minDuration s3 rest

/-- Models `SRTFormatter::fix_segment_timing`: filter/normalize, sort by start,
then the overlap/min-duration pass starting from `last_end = 0`. -/
def fix_segment_timing (segments : List Segment) (minDuration : ℚ) : List Segment :=
  srtOverlapPass minDuration 0 (sortByStart (srtNormalizeFilter segments))

/-- The per-segment normalization of `fix_segments_for_vtt` /
`fix_segments_for_ass`: drop empty trimmed text, clamp negative start,
repair `end <= start`, enforce minimum duration (all BEFORE sorting). -/
def vttNormalizeFilter (segments : List Segment) (minDuration : ℚ) : List Segment :=
  segments.filterMap fun seg =>
    let trimmed := cppTrim seg.text
    if trimmed = "" then none
    else
      let st := if seg.start < 0 then 0 else seg.start
      let e1 := if seg.stop ≤ st then st + minDuration else seg.stop
      let e2 := if e1 - st < minDuration then st + minDuration else e1
      some { seg with text := trimmed, start := st, stop := e2 }

/-- The final loop of `fix_segments_for_vtt` / `fix_segments_for_ass`:
overlap resolution only — no min-duration re-check after shifting. -/
def vttOverlapPass (minDuration : ℚ) : ℚ → List Segment → List Segment
  | _, [] => []
  | lastEnd, seg :: rest =>
      let s1 := if seg.start < lastEnd then lastEnd else seg.start
      let s2 := if seg.stop ≤ s1 then s1 + minDuration else seg.stop
      { seg with start := s1, stop := s2 } :: vttOverlapPass minDuration s2 rest

/-- Models `fix_segments_for_vtt` (`output_formats.cpp`). -/
def fix_segments_for_vtt (segments : List Segment) (minDuration : ℚ) : List Segment :=
  vttOverlapPass minDuration 0 (sortByStart (vttNormalizeFilter segments minDuration))

/-- Models `fix_segments_for_ass` (`output_formats.cpp`): its body is character for
character the body of `fix_segments_for_vtt`. -/
def fix_segments_for_ass (segments : List Segment) (minDuration : ℚ) : List Segment :=
  fix_segments_for_vtt segments minDuration

/-- Models `SRTFormatter::format_segment`: `index\n start --> end\n text\n`, with
the text trimmed once more. -/
def format_segment (segment : Segment) (index : ℕ) : String :=
  Nat.repr index ++ "\n" ++ format_srt_time segment.start ++ " --> "
    ++ format_srt_time segment.stop ++ "\n" ++ cppTrim segment.text ++ "\n"

/-- Models `SRTFormatter::format_segments`: empty input gives `""`; otherwise the
timing-corrected segments are emitted as 1-based blocks with a blank line
(an extra `"\n"`) between consecutive blocks. -/
def srt_format_segments (segments : List Segment) (minDuration : ℚ) : String :=
  if segments.isEmpty then ""
  else
    let fixedSegments := fix_segment_timing segments minDuration
    String.intercalate "\n"
      ((List.range fixedSegments.length).map fun i =>
        format_segment (fixedSegments.getD i default) (i + 1))

/-- The zip loop shared by `create_bilingual_srt` / `create_bilingual_vtt` /
`create_bilingual_ass`: copy the original segment (timing, language,
confidence) and append the translated text after a newline. -/
def combineBilingual (original translated : List Segment) : List Segment :=
  (original.zip translated).map fun p =>
    { p.1 with text := p.1.text ++ "\n" ++ p.2.text }

/-- Models `SRTFormatter::create_bilingual_srt`: on a length mismatch fall back to
formatting the originals alone; otherwise format the zipped bilingual
segments. `format_segments` is called with its default `min_duration = 0.5`. -/
def create_bilingual_srt (original translated : List Segment) : String :=
  if original.length ≠ translated.length then srt_format_segments original (1/2)
  else srt_format_segments (combineBilingual original translated) (1/2)

/-- Models `WebVTTFormatter::format_segments`: `WEBVTT`, blank line, then
`start --> end\n text\n\n` per corrected cue. -/
def vtt_format_segments (segments : List Segment) (minDuration : ℚ) : String :=
  "WEBVTT\n\n" ++ String.join
    ((fix_segments_for_vtt segments minDuration).map fun s =>
      format_vtt_time s.start ++ " --> " ++ format_vtt_time s.stop ++ "\n" ++ s.text ++ "\n\n")

/-- Models `WebVTTFormatter::create_bilingual_vtt`: same fallback policy as the SRT
combiner, with the formatter's default `min_duration = 0.5`. -/
def create_bilingual_vtt (original translated : List Segment) : String :=
  if original.length ≠ translated.length then vtt_format_segments original (1/2)
  else vtt_format_segments (combineBilingual original translated) (1/2)

/-- One `Dialogue:` line of `ASSFormatter::format_segments`. -/
def ass_dialogue_line (styleName : String) (s : Segment) : String :=
  "Dialogue: 0," ++ format_ass_time s.start ++ "," ++ format_ass_time s.stop ++ ","
    ++ styleName ++ ",,0,0,0,," ++ ass_escape_text s.text ++ "\n"

/-- The merge test of `merge_segments` (`google_translator.cpp`): combined
duration within `max_duration`, combined text within `max_chars` bytes, gap
at most 2 seconds. -/
def canMergeSeg (maxDuration : ℚ) (maxChars : ℕ) (cur next : Segment) : Bool :=
  decide (next.stop - cur.start ≤ maxDuration)
    && decide (utf8Len (cur.text ++ " " ++ next.text) ≤ maxChars)
    && decide (next.start - cur.stop ≤ 2)

/-- One merge step of `merge_segments`: extend the accumulator's end, join
the texts with a space, keep the language if already set else adopt the
next one, average confidences when both are present. -/
def combineSeg (cur next : Segment) : Segment :=
  { start := cur.start
    stop := next.stop
    text := cur.text ++ " " ++ next.text
    language := if cur.language.isNone && next.language.isSome then next.language else cur.language
    confidence :=
      match cur.confidence, next.confidence with
      | some a, some b => some ((a + b) / 2)
      | none, some b => some b
      | c, none => c }

/-- The loop of `merge_segments`: greedy left-to-right accumulation. -/
def mergeGo (maxDuration : ℚ) (maxChars : ℕ) : Segment → List Segment → List Segment
  | cur, [] => [cur]
  | cur, next :: rest =>
      if canMergeSeg maxDuration maxChars cur next
      then mergeGo maxDuration maxChars (combineSeg cur next) rest
      else cur :: mergeGo maxDuration maxChars next rest

/-- Models `merge_segments` (`google_translator.cpp`). -/
def merge_segments : List Segment → ℚ → ℕ → List Segment
  | [], _, _ => []
  | first :: rest, maxDuration, maxChars => mergeGo maxDuration maxChars first rest

/-- The loop body of `group_indices_by_limits` (`openai_translator.cpp`),
recursing over the byte lengths of the remaining texts. `i` is the index of
the next segment, `current` the open group, `charCount` its running total.
A new index always joins the current group AFTER the overflow check, so an
oversized single segment still lands in a (fresh) group. -/
def gibGo (maxChars maxSegments : ℕ) : List ℕ → ℕ → List ℕ → ℕ → List (List ℕ)
  | [], _, current, _ => if current.isEmpty then [] else [current]
  | len :: rest, i, current, charCount =>
      if !current.isEmpty && (decide (maxChars < charCount + len) || decide (maxSegments ≤ current.length))
      then current :: gibGo maxChars maxSegments rest (i + 1) [i] len
      else gibGo maxChars maxSegments rest (i + 1) (current ++ [i]) (charCount + len)

/-- Models `group_indices_by_limits`: greedy grouping of segment indices by total
text byte count and group size. -/
def group_indices_by_limits (segs : List Segment) (maxChars maxSegments : ℕ) : List (List ℕ) :=
  gibGo maxChars maxSegments (segs.map fun s => utf8Len s.text) 0 [] 0

/-- The write-back loop of `OpenAITranslator::translate_segments` for one
group: position `i` of the group receives `translated[i]` when the response
is long enough, else the segment's original text; timing is copied from the
input segment. -/
def writeGroup (segs : List Segment) (translated : List String) :
    List ℕ → ℕ → List Segment → List Segment
  | [], _, acc => acc
  | idx :: rest, i, acc =>
      writeGroup segs translated rest (i + 1)
        (acc.set idx { segs.getD idx default with
                        text := translated.getD i (segs.getD idx default).text })

/-- The batch-mode path of `OpenAITranslator::translate_segments`,
parameterized by the network translation `tr` (the observable behaviour of
`translate_texts_batch`, an arbitrary total function: the C++ helper
returns the original texts on failure and never throws). The result vector
is `resize`d to the input length (value-initialized segments) and then
filled group by group; the grouper is called with
`std::max(1, max_batch_segments)`. -/
def translate_segments_batch (tr : List String → List String) (segs : List Segment)
    (maxBatchChars maxBatchSegments : ℕ) : List Segment :=
  let groups := group_indices_by_limits segs maxBatchChars (max 1 maxBatchSegments)
  groups.foldl
    (fun acc g => writeGroup segs (tr (g.map fun idx => (segs.getD idx default).text)) g 0 acc)
    (List.replicate segs.length default)

/-! ### Helper lemmas -/

/-- Length of the SRT normalize-and-filter pass: one output segment per
input segment with non-empty trimmed text. -/
lemma length_srtNormalizeFilter (segs : List Segment) :
    (srtNormalizeFilter segs).length = (segs.filter fun s => cppTrim s.text != "").length := by
  induction segs with
  | nil => rfl
  | cons s rest ih =>
      by_cases h : cppTrim s.text = "" <;>
        simp [srtNormalizeFilter, List.filterMap_cons, List.filter_cons, h] <;>
        simpa [srtNormalizeFilter] using ih

/-- Sorting preserves length. -/
lemma length_sortByStart (l : List Segment) : (sortByStart l).length = l.length :=
  (List.perm_insertionSort _ l).length_eq

/-- Sorting preserves membership. -/
lemma mem_sortByStart {l : List Segment} {s : Segment} : s ∈ sortByStart l ↔ s ∈ l :=
  (List.perm_insertionSort _ l).mem_iff

/-- The SRT overlap pass touches every segment exactly once. -/
lemma length_srtOverlapPass (d : ℚ) : ∀ (lastEnd : ℚ) (l : List Segment),
    (srtOverlapPass d lastEnd l).length = l.length := by
  intro lastEnd l
  induction l generalizing lastEnd with
  | nil => rfl
  | cons s rest ih => simp [srtOverlapPass, ih]

/-- Every segment surviving the SRT normalize-and-filter pass has a
non-negative start (negative starts are clamped to 0). -/
lemma srtNormalizeFilter_start_nonneg {segs : List Segment} :
    ∀ s ∈ srtNormalizeFilter segs, 0 ≤ s.start := by
  intro s hs
  rw [srtNormalizeFilter, List.mem_filterMap] at hs
  obtain ⟨a, _, ha⟩ := hs
  by_cases h : cppTrim a.text = ""
  · simp [h] at ha
  · simp only [h, if_false, Option.some.injEq] at ha
    subst ha
    by_cases h2 : a.start < 0 <;> simp [h2]
    linarith [le_of_not_lt h2]

/-- Every segment surviving the VTT/ASS normalize-and-filter pass has a
non-negative start. -/
lemma vttNormalizeFilter_start_nonneg {segs : List Segment} {d : ℚ} :
    ∀ s ∈ vttNormalizeFilter segs d, 0 ≤ s.start := by
  intro s hs
  rw [vttNormalizeFilter, List.mem_filterMap] at hs
  obtain ⟨a, _, ha⟩ := hs
  by_cases h : cppTrim a.text = ""
  · simp [h] at ha
  · simp only [h, if_false, Option.some.injEq] at ha
    subst ha
    by_cases h2 : a.start < 0 <;> simp [h2]
    linarith [le_of_not_lt h2]

/-- Soundness of the SRT overlap/min-duration loop: starting from a
non-negative `last_end`, every emitted segment starts at or after
`last_end`, has a non-negative start, meets the minimum duration, and
consecutive emitted segments never overlap. -/
lemma srtOverlapPass_sound (d : ℚ) (hd : 0 < d) :
    ∀ (l : List Segment) (lastEnd : ℚ), 0 ≤ lastEnd → (∀ s ∈ l, 0 ≤ s.start) →
      (∀ s ∈ srtOverlapPass d lastEnd l, lastEnd ≤ s.start ∧ 0 ≤ s.start ∧ d ≤ s.stop - s.start)
      ∧ (srtOverlapPass d lastEnd l).Chain' (fun a b => a.stop ≤ b.start) := by
  intro l
  induction l with
  | nil => intro lastEnd _ _; exact ⟨by simp [srtOverlapPass], by simp [srtOverlapPass]⟩
  | cons seg rest ih =>
      intro lastEnd hle hstarts
      set s1 : ℚ := if seg.start < lastEnd then lastEnd else seg.start with hs1
      set s2 : ℚ := if seg.stop ≤ s1 then s1 + d else seg.stop with hs2
      set s3 : ℚ := if s2 - s1 < d then s1 + d else s2 with hs3
      have hunfold : srtOverlapPass d lastEnd (seg :: rest)
          = { seg with start := s1, stop := s3 } :: srtOverlapPass d s3 rest := rfl
      have hs1_ge : lastEnd ≤ s1 := by
        rw [hs1]; split_ifs with h
        · exact le_refl _
        · exact le_of_not_lt h
      have hs1_nonneg : 0 ≤ s1 := le_trans hle hs1_ge
      have hdur : d ≤ s3 - s1 := by
        rw [hs3]; split_ifs with h
        · linarith
        · linarith [le_of_not_lt h]
      have hs3_nonneg : 0 ≤ s3 := by linarith
      obtain ⟨ihmem, ihchain⟩ :=
        ih s3 hs3_nonneg (fun s hs => hstarts s (List.mem_cons_of_mem _ hs))
      rw [hunfold]
      constructor
      · intro s hs
        rcases List.mem_cons.mp hs with h | h
        · subst h
          exact ⟨hs1_ge, hs1_nonneg, hdur⟩
        · obtain ⟨h1, h2, h3⟩ := ihmem s h
          exact ⟨by linarith, h2, h3⟩
      · rw [List.chain'_cons']
        refine ⟨?_, ihchain⟩
        intro b hb
        have hbmem : b ∈ srtOverlapPass d s3 rest := List.mem_of_mem_head? hb
        exact (ihmem b hbmem).1

/-- Soundness of the VTT/ASS overlap loop: non-negative, non-overlapping,
monotone output with strictly positive durations — but no minimum-duration
guarantee. -/
lemma vttOverlapPass_sound (d : ℚ) (hd : 0 < d) :
    ∀ (l : List Segment) (lastEnd : ℚ), 0 ≤ lastEnd → (∀ s ∈ l, 0 ≤ s.start) →
      (∀ s ∈ vttOverlapPass d lastEnd l, lastEnd ≤ s.start ∧ 0 ≤ s.start ∧ s.start < s.stop)
      ∧ (vttOverlapPass d lastEnd l).Chain' (fun a b => a.stop ≤ b.start) := by
  intro l
  induction l with
  | nil => intro lastEnd _ _; exact ⟨by simp [vttOverlapPass], by simp [vttOverlapPass]⟩
  | cons seg rest ih =>
      intro lastEnd hle hstarts
      set s1 : ℚ := if seg.start < lastEnd then lastEnd else seg.start with hs1
      set s2 : ℚ := if seg.stop ≤ s1 then s1 + d else seg.stop with hs2
      have hunfold : vttOverlapPass d lastEnd (seg :: rest)
          = { seg with start := s1, stop := s2 } :: vttOverlapPass d s2 rest := rfl
      have hs1_ge : lastEnd ≤ s1 := by
        rw [hs1]; split_ifs with h
        · exact le_refl _
        · exact le_of_not_lt h
      have hs1_nonneg : 0 ≤ s1 := le_trans hle hs1_ge
      have hlt : s1 < s2 := by
        rw [hs2]; split_ifs with h
        · linarith
        · exact lt_of_not_le h
      have hs2_nonneg : 0 ≤ s2 := by linarith
      obtain ⟨ihmem, ihchain⟩ :=
        ih s2 hs2_nonneg (fun s hs => hstarts s (List.mem_cons_of_mem _ hs))
      rw [hunfold]
      constructor
      · intro s hs
        rcases List.mem_cons.mp hs with h | h
        · subst h
          exact ⟨hs1_ge, hs1_nonneg, hlt⟩
        · obtain ⟨h1, h2, h3⟩ := ihmem s h
          exact ⟨by linarith, h2, h3⟩
      · rw [List.chain'_cons']
        refine ⟨?_, ihchain⟩
        intro b hb
        have hbmem : b ∈ vttOverlapPass d s2 rest := List.mem_of_mem_head? hb
        exact (ihmem b hbmem).1

/-- The flattened output of the grouping loop is the open group followed by
the remaining indices in order. -/
lemma gibGo_flatten (mc ms : ℕ) :
    ∀ (l : List ℕ) (i : ℕ) (current : List ℕ) (cc : ℕ),
      (gibGo mc ms l i current cc).flatten = current ++ List.range' i l.length := by
  intro l
  induction l with
  | nil =>
      intro i current cc
      by_cases h : current.isEmpty
      · simp [gibGo, h, List.isEmpty_iff.mp h]
      · simp [gibGo, h]
  | cons len rest ih =>
      intro i current cc
      cases h : (!current.isEmpty && (decide (mc < cc + len) || decide (ms ≤ current.length))) with
      | true => simp [gibGo, h, ih, List.range'_succ]
      | false => simp [gibGo, h, ih, List.range'_succ]

/-- No group emitted by the grouping loop is empty. -/
lemma gibGo_ne_nil (mc ms : ℕ) :
    ∀ (l : List ℕ) (i : ℕ) (current : List ℕ) (cc : ℕ),
      ∀ g ∈ gibGo mc ms l i current cc, g ≠ [] := by
  intro l
  induction l with
  | nil =>
      intro i current cc g hg
      by_cases h : current.isEmpty
      · simp [gibGo, h] at hg
      · simp [gibGo, h] at hg
        subst hg
        exact List.isEmpty_eq_false.mp (Bool.not_eq_true _ ▸ h)
  | cons len rest ih =>
      intro i current cc g hg
      cases h : (!current.isEmpty && (decide (mc < cc + len) || decide (ms ≤ current.length))) with
      | true =>
          rw [gibGo, h, if_pos rfl] at hg
          rcases List.mem_cons.mp hg with h2 | h2
          · subst h2
            have := (Bool.and_eq_true _ _).mp h |>.1
            exact List.isEmpty_eq_false.mp (Bool.not_eq_true' .. |>.mp this)
          · exact ih _ _ _ g h2
      | false =>
          rw [gibGo, h, if_neg (by simp)] at hg
          exact ih _ _ _ g hg

/-- Every group emitted by the grouping loop respects the segment-count
limit, provided the open group already does and the limit is at least 1. -/
lemma gibGo_size (mc ms : ℕ) (hms : 1 ≤ ms) :
    ∀ (l : List ℕ) (i : ℕ) (current : List ℕ) (cc : ℕ), current.length ≤ ms →
      ∀ g ∈ gibGo mc ms l i current cc, g.length ≤ ms := by
  intro l
  induction l with
  | nil =>
      intro i current cc hcur g hg
      by_cases h : current.isEmpty
      · simp [gibGo, h] at hg
      · simp [gibGo, h] at hg
        subst hg; exact hcur
  | cons len rest ih =>
      intro i current cc hcur g hg
      cases h : (!current.isEmpty && (decide (mc < cc + len) || decide (ms ≤ current.length))) with
      | true =>
          rw [gibGo, h, if_pos rfl] at hg
          rcases List.mem_cons.mp hg with h2 | h2
          · subst h2; exact hcur
          · exact ih _ _ _ (by simpa using hms) g h2
      | false =>
          rw [gibGo, h, if_neg (by simp)] at hg
          by_cases hc : current = []
          · subst hc
            exact ih _ _ _ (by simpa using hms) g hg
          · have hnot := (Bool.and_eq_false_iff.mp h).resolve_left
              (by simp [List.isEmpty_eq_false.mpr hc])
            have hlt : current.length < ms := by
              rcases Bool.or_eq_false_iff.mp hnot with ⟨_, h2⟩
              simpa using of_decide_eq_false h2
            exact ih _ _ _ (by simp; omega) g hg

/-- Every group emitted by the grouping loop has total byte length at most
`mc`, provided every single text fits in `mc` and the open group does. -/
lemma gibGo_sum (mc ms : ℕ) (L : List ℕ) (hL : ∀ x ∈ L, x ≤ mc) :
    ∀ (l : List ℕ) (i : ℕ) (current : List ℕ) (cc : ℕ),
      l = L.drop i → (current.map fun idx => L.getD idx 0).sum = cc → cc ≤ mc →
      ∀ g ∈ gibGo mc ms l i current cc, (g.map fun idx => L.getD idx 0).sum ≤ mc := by
  intro l
  induction l with
  | nil =>
      intro i current cc _ hsum hcc g hg
      by_cases h : current.isEmpty
      · simp [gibGo, h] at hg
      · simp [gibGo, h] at hg
        subst hg; rw [hsum]; exact hcc
  | cons len rest ih =>
      intro i current cc hdrop hsum hcc g hg
      have hgetL : L[i]? = some len := by
        have := List.getElem?_drop L i 0
        rw [← hdrop] at this
        simpa using this.symm
      have hgetD : L.getD i 0 = len := by
        rw [List.getD_eq_getElem?_getD, hgetL]; rfl
      have hmem : len ∈ L := by
        obtain ⟨hlt, heq⟩ := List.getElem?_eq_some_iff.mp hgetL
        exact heq ▸ List.getElem_mem hlt
      have hlen_le : len ≤ mc := hL len hmem
      have hrest : rest = L.drop (i + 1) := by
        have := List.tail_drop L i
        rw [← hdrop] at this
        exact this
      cases h : (!current.isEmpty && (decide (mc < cc + len) || decide (ms ≤ current.length))) with
      | true =>
          rw [gibGo, h, if_pos rfl] at hg
          rcases List.mem_cons.mp hg with h2 | h2
          · subst h2; rw [hsum]; exact hcc
          · exact ih _ _ _ hrest (by simp [hgetD, hgetL]) hlen_le g h2
      | false =>
          rw [gibGo, h, if_neg (by simp)] at hg
          by_cases hc : current = []
          · subst hc
            have hcc0 : cc = 0 := by simpa using hsum.symm
            exact ih _ _ _ hrest (by simp [hgetD, hgetL, hcc0]) (by omega) g hg
          · have hnot := (Bool.and_eq_false_iff.mp h).resolve_left
              (by simp [List.isEmpty_eq_false.mpr hc])
            have hle : cc + len ≤ mc := by
              rcases Bool.or_eq_false_iff.mp hnot with ⟨h2, _⟩
              simpa using of_decide_eq_false h2
            exact ih _ _ _ hrest (by simp [← hsum, hgetD, hgetL]) hle g hg

/-- Folding merge steps never changes the accumulated start. -/
lemma foldl_combineSeg_start : ∀ (l : List Segment) (cur : Segment),
    (List.foldl combineSeg cur l).start = cur.start := by
  intro l
  induction l with
  | nil => intro cur; rfl
  | cons a l ih => intro cur; rw [List.foldl_cons, ih]; rfl

/-- Folding merge steps ends at the last segment's end. -/
lemma foldl_combineSeg_stop : ∀ (l : List Segment) (cur : Segment),
    (List.foldl combineSeg cur l).stop = (l.getLastD cur).stop := by
  intro l
  induction l with
  | nil => intro cur; rfl
  | cons a l ih =>
      intro cur
      rw [List.foldl_cons, ih, List.getLastD_cons]
      cases l with
      | nil => rfl
      | cons b l2 => rw [List.getLastD_cons, List.getLastD_cons]

/-- When every step of the greedy scan passes the merge test, the loop
collapses the whole list into the folded accumulator. -/
lemma mergeGo_all (maxD : ℚ) (maxC : ℕ) :
    ∀ (rest : List Segment) (cur : Segment),
      (∀ j, j < rest.length →
        canMergeSeg maxD maxC (List.foldl combineSeg cur (rest.take j)) (rest.getD j default)
          = true) →
      mergeGo maxD maxC cur rest = [List.foldl combineSeg cur rest] := by
  intro rest
  induction rest with
  | nil => intro cur _; rfl
  | cons next rest ih =>
      intro cur h
      have h0 := h 0 (by simp)
      simp only [List.take_zero, List.foldl_nil, List.getD_cons_zero] at h0
      rw [mergeGo, if_pos h0, List.foldl_cons]
      apply ih
      intro j hj
      have hj1 := h (j + 1) (by simpa using hj)
      simpa only [List.take_succ_cons, List.foldl_cons, List.getD_cons_succ] using hj1

/-- Byte length is additive over string append. -/
lemma utf8Len_append (a b : String) : utf8Len (a ++ b) = utf8Len a + utf8Len b := by
  simp [utf8Len]

/-- A failing merge test means one of the three conditions is violated. -/
lemma canMergeSeg_false_elim {maxD : ℚ} {maxC : ℕ} {cur next : Segment}
    (h : canMergeSeg maxD maxC cur next = false) :
    maxD < next.stop - cur.start ∨ maxC < utf8Len (cur.text ++ " " ++ next.text)
      ∨ 2 < next.start - cur.stop := by
  rw [canMergeSeg] at h
  rcases Bool.and_eq_false_iff.mp h with h1 | h2
  · rcases Bool.and_eq_false_iff.mp h1 with ha | hb
    · exact Or.inl (lt_of_not_le (of_decide_eq_false ha))
    · exact Or.inr (Or.inl (lt_of_not_le (of_decide_eq_false hb)))
  · exact Or.inr (Or.inr (lt_of_not_le (of_decide_eq_false h2)))

/-- One violated condition makes the merge test fail. -/
lemma canMergeSeg_eq_false {maxD : ℚ} {maxC : ℕ} {cur next : Segment}
    (h : maxD < next.stop - cur.start ∨ maxC < utf8Len (cur.text ++ " " ++ next.text)
      ∨ 2 < next.start - cur.stop) :
    canMergeSeg maxD maxC cur next = false := by
  rw [canMergeSeg]
  rcases h with h | h | h
  · rw [Bool.and_eq_false_iff]; left; rw [Bool.and_eq_false_iff]; left
    exact decide_eq_false (not_le.mpr h)
  · rw [Bool.and_eq_false_iff]; left; rw [Bool.and_eq_false_iff]; right
    exact decide_eq_false (not_le.mpr h)
  · rw [Bool.and_eq_false_iff]; right
    exact decide_eq_false (not_le.mpr h)

/-- Structure of the greedy merge output when end times are non-decreasing:
the output is non-empty, its head extends the accumulator (same start, an
end at least the accumulator's, text an extension of the accumulator's),
and no adjacent pair of the output passes the merge test any more. -/
lemma mergeGo_struct (maxD : ℚ) (maxC : ℕ) :
    ∀ (l : List Segment) (cur : Segment),
      ((cur :: l).Chain' fun a b => a.stop ≤ b.stop) →
      mergeGo maxD maxC cur l ≠ []
      ∧ ((mergeGo maxD maxC cur l).headD default).start = cur.start
      ∧ cur.stop ≤ ((mergeGo maxD maxC cur l).headD default).stop
      ∧ (∃ suf, ((mergeGo maxD maxC cur l).headD default).text = cur.text ++ suf)
      ∧ ((mergeGo maxD maxC cur l).Chain' fun a b => canMergeSeg maxD maxC a b = false) := by
  intro l
  induction l with
  | nil =>
      intro cur _
      exact ⟨by simp [mergeGo], rfl, le_refl _, ⟨"", (String.append_empty _).symm⟩,
             by simp [mergeGo]⟩
  | cons next rest ih =>
      intro cur hch
      rw [List.chain'_cons] at hch
      obtain ⟨hce, hch2⟩ := hch
      by_cases hm : canMergeSeg maxD maxC cur next = true
      · have hunfold : mergeGo maxD maxC cur (next :: rest)
            = mergeGo maxD maxC (combineSeg cur next) rest := by
          rw [mergeGo, if_pos hm]
        have hchc : ((combineSeg cur next) :: rest).Chain' (fun a b => a.stop ≤ b.stop) := by
          cases rest with
          | nil => simp
          | cons b rest2 =>
              rw [List.chain'_cons] at hch2 ⊢
              exact ⟨hch2.1, hch2.2⟩
        obtain ⟨hne, hstart, hstop, ⟨suf, htext⟩, hchainF⟩ := ih (combineSeg cur next) hchc
        rw [hunfold]
        refine ⟨hne, ?_, ?_, ⟨" " ++ next.text ++ suf, ?_⟩, hchainF⟩
        · rw [hstart]; rfl
        · exact le_trans hce hstop
        · rw [htext]
          simp [combineSeg, String.append_assoc]
      · have hm2 : canMergeSeg maxD maxC cur next = false := Bool.eq_false_iff.mpr hm
        have hunfold : mergeGo maxD maxC cur (next :: rest)
            = cur :: mergeGo maxD maxC next rest := by
          rw [mergeGo, if_neg (by simp [hm2])]
        obtain ⟨hne2, hstart2, hstop2, ⟨suf, htext2⟩, hchainF2⟩ := ih next hch2
        rw [hunfold]
        refine ⟨by simp, rfl, le_refl _, ⟨"", (String.append_empty _).symm⟩, ?_⟩
        rw [List.chain'_cons']
        refine ⟨?_, hchainF2⟩
        intro b hb
        have hbhead : b = (mergeGo maxD maxC next rest).headD default := by
          cases hmg : mergeGo maxD maxC next rest with
          | nil => rw [hmg] at hb; simp at hb
          | cons x xs =>
              rw [hmg] at hb
              simp only [List.head?_cons, Option.mem_some_iff] at hb
              simp [hmg, ← hb]
        rw [hbhead]
        apply canMergeSeg_eq_false
        rcases canMergeSeg_false_elim hm2 with hf | hf | hf
        · left
          have := hstop2
          linarith
        · right; left
          have heq : utf8Len (cur.text ++ " " ++ ((mergeGo maxD maxC next rest).headD default).text)
              = utf8Len (cur.text ++ " " ++ next.text) + utf8Len suf := by
            rw [htext2, ← String.append_assoc, utf8Len_append]
          omega
        · right; right
          rw [hstart2]
          exact hf

/-- A list on which no adjacent pair passes the merge test is a fixed point
of the greedy merge loop. -/
lemma mergeGo_no_merge (maxD : ℚ) (maxC : ℕ) :
    ∀ (l : List Segment) (cur : Segment),
      ((cur :: l).Chain' fun a b => canMergeSeg maxD maxC a b = false) →
      mergeGo maxD maxC cur l = cur :: l := by
  intro l
  induction l with
  | nil => intro cur _; rfl
  | cons b rest ih =>
      intro cur hch
      rw [List.chain'_cons] at hch
      rw [mergeGo, if_neg (by simp [hch.1]), ih b hch.2]

/-- The per-group write-back loop preserves the result vector's length. -/
lemma writeGroup_length (segs : List Segment) (tl : List String) :
    ∀ (g : List ℕ) (i : ℕ) (acc : List Segment),
      (writeGroup segs tl g i acc).length = acc.length := by
  intro g
  induction g with
  | nil => intro i acc; rfl
  | cons idx rest ih =>
      intro i acc
      rw [writeGroup, ih]
      exact List.length_set acc ..

/-- The write-back loop leaves positions outside the group untouched. -/
lemma writeGroup_getD_not_mem (segs : List Segment) (tl : List String) :
    ∀ (g : List ℕ) (i : ℕ) (acc : List Segment) (idx : ℕ), idx ∉ g →
      (writeGroup segs tl g i acc).getD idx default = acc.getD idx default := by
  intro g
  induction g with
  | nil => intro i acc idx _; rfl
  | cons j rest ih =>
      intro i acc idx hnotin
      have hne : j ≠ idx := fun hEq => hnotin (hEq ▸ List.mem_cons_self j rest)
      rw [writeGroup, ih _ _ _ (fun hmem => hnotin (List.mem_cons_of_mem _ hmem)),
          List.getD_eq_getElem?_getD, List.getElem?_set_ne hne, ← List.getD_eq_getElem?_getD]

/-- The write-back loop writes position `j` of the group with the
translated string at offset `i0 + j`, falling back to the original text
when the translation list is too short. -/
lemma writeGroup_getD_mem (segs : List Segment) (tl : List String) :
    ∀ (g : List ℕ) (i0 : ℕ) (acc : List Segment), g.Nodup → (∀ x ∈ g, x < acc.length) →
      ∀ j, j < g.length →
        (writeGroup segs tl g i0 acc).getD (g.getD j 0) default
          = { segs.getD (g.getD j 0) default with
                text := tl.getD (i0 + j) (segs.getD (g.getD j 0) default).text } := by
  intro g
  induction g with
  | nil => intro i0 acc _ _ j hj; exact absurd hj (by simp)
  | cons idx rest ih =>
      intro i0 acc hnd hbound j hj
      rw [List.nodup_cons] at hnd
      cases j with
      | zero =>
          rw [List.getD_cons_zero, writeGroup,
              writeGroup_getD_not_mem segs tl rest _ _ idx hnd.1,
              List.getD_eq_getElem?_getD,
              List.getElem?_set_self (hbound idx (List.mem_cons_self idx rest))]
          simp
      | succ j =>
          rw [List.getD_cons_succ, writeGroup]
          have := ih (i0 + 1)
            (acc.set idx { segs.getD idx default with
                            text := tl.getD i0 (segs.getD idx default).text }) hnd.2
            (fun x hx => by rw [List.length_set]; exact hbound x (List.mem_cons_of_mem _ hx))
            j (by simpa using hj)
          rw [this]
          have harith : i0 + 1 + j = i0 + (j + 1) := by omega
          rw [harith]

/-- Folding the write-back over a list of groups preserves the length. -/
lemma foldl_writeGroup_length (segs : List Segment) (F : List ℕ → List String) :
    ∀ (G : List (List ℕ)) (acc : List Segment),
      (G.foldl (fun acc g => writeGroup segs (F g) g 0 acc) acc).length = acc.length := by
  intro G
  induction G with
  | nil => intro acc; rfl
  | cons g0 G ih => intro acc; rw [List.foldl_cons, ih, writeGroup_length]

/-- Folding the write-back over groups not containing `idx` leaves position
`idx` untouched. -/
lemma foldl_writeGroup_not_mem (segs : List Segment) (F : List ℕ → List String) :
    ∀ (G : List (List ℕ)) (acc : List Segment) (idx : ℕ), (∀ g ∈ G, idx ∉ g) →
      (G.foldl (fun acc g => writeGroup segs (F g) g 0 acc) acc).getD idx default
        = acc.getD idx default := by
  intro G
  induction G with
  | nil => intro acc idx _; rfl
  | cons g0 G ih =>
      intro acc idx hnotin
      rw [List.foldl_cons, ih _ _ (fun g hg => hnotin g (List.mem_cons_of_mem _ hg)),
          writeGroup_getD_not_mem segs (F g0) g0 0 acc idx (hnotin g0 (List.mem_cons_self g0 G))]

/-- When the groups are pairwise disjoint (their concatenation has no
duplicate) and all indices are in range, folding the write-back gives, at
position `j` of group `g`, the original segment with the text replaced by
`(F g).getD j original`. -/
lemma foldl_writeGroup_spec (segs : List Segment) (F : List ℕ → List String) :
    ∀ (G : List (List ℕ)) (acc : List Segment), G.flatten.Nodup →
      (∀ x ∈ G.flatten, x < acc.length) →
      ∀ g ∈ G, ∀ j, j < g.length →
        (G.foldl (fun acc g => writeGroup segs (F g) g 0 acc) acc).getD (g.getD j 0) default
          = { segs.getD (g.getD j 0) default with
                text := (F g).getD j (segs.getD (g.getD j 0) default).text } := by
  intro G
  induction G with
  | nil => intro acc _ _ g hg; exact absurd hg (by simp)
  | cons g0 G ih =>
      intro acc hnd hbound g hg j hj
      rw [List.flatten_cons, List.nodup_append] at hnd
      obtain ⟨hnd0, hndG, hdisj⟩ := hnd
      rcases List.mem_cons.mp hg with rfl | hgG
      · have hmemg : g.getD j 0 ∈ g := by
          rw [List.getD_eq_getElem g 0 hj]
          exact List.getElem_mem hj
        have hnotinG : ∀ g2 ∈ G, g.getD j 0 ∉ g2 := by
          intro g2 hg2 hmem2
          exact hdisj hmemg (List.mem_flatten.mpr ⟨g2, hg2, hmem2⟩)
        rw [List.foldl_cons, foldl_writeGroup_not_mem segs F G _ _ hnotinG,
            writeGroup_getD_mem segs (F g) g 0 acc hnd0
              (fun x hx => hbound x (by rw [List.flatten_cons]; exact List.mem_append_left _ hx))
              j hj]
        have : 0 + j = j := by omega
        rw [this]
      · rw [List.foldl_cons]
        exact ih _ hndG
          (fun x hx => by
            rw [writeGroup_length]
            exact hbound x (by rw [List.flatten_cons]; exact List.mem_append_right _ hx))
          g hgG j hj

/-- Floor-to-Nat bounds for a non-negative rational. -/
lemma ratFloorNat_spec {q : ℚ} (hq : 0 ≤ q) :
    (ratFloorNat q : ℚ) ≤ q ∧ q < ratFloorNat q + 1 := by
  have h0 : (0 : ℤ) ≤ ⌊q⌋ := Int.floor_nonneg.mpr hq
  have hcast : ((ratFloorNat q : ℕ) : ℚ) = ((⌊q⌋ : ℤ) : ℚ) := by
    rw [ratFloorNat]
    exact_mod_cast congrArg (fun z : ℤ => (z : ℚ)) (Int.toNat_of_nonneg h0)
  constructor
  · rw [hcast]; exact Int.floor_le q
  · rw [hcast]; exact Int.lt_floor_add_one q

/-- Two-digit zero-padding really is two characters for inputs below 100. -/
lemma pad2_length : ∀ n, n < 100 → (pad2 n).length = 2 := by decide

/-- Character-level description of the ASS escape loop. -/
lemma ass_escape_data (l : List Char) : ∀ acc : String,
    (l.foldl (fun out c => if c = '\n' || c = '\r' then out ++ "\\N" else out.push c) acc).data
      = acc.data
        ++ (l.map fun ch => if ch = '\n' || ch = '\r' then ['\\', 'N'] else [ch]).flatten := by
  induction l with
  | nil => intro acc; simp
  | cons ch l ih =>
      intro acc
      rw [List.foldl_cons]
      by_cases h : (ch = '\n' || ch = '\r') = true
      · rw [if_pos h, ih]
        have hp : ch = '\n' ∨ ch = '\r' := by simpa using h
        simp [String.data_append, if_pos hp]
      · rw [if_neg h, ih]
        have hp : ¬ (ch = '\n' ∨ ch = '\r') := by simpa using h
        simp [String.data_push, if_neg hp]

/-- Strengthening a chain relation with a per-element fact. -/
lemma chain'_strengthen {α : Type} {R S : α → α → Prop} {P : α → Prop} :
    ∀ {l : List α}, l.Chain' R → (∀ s ∈ l, P s) → (∀ a b, R a b → P a → S a b) →
      l.Chain' S := by
  intro l
  induction l with
  | nil => simp
  | cons a rest ih =>
      intro hc hp himp
      cases rest with
      | nil => simp
      | cons b rest2 =>
          rw [List.chain'_cons] at hc ⊢
          exact ⟨himp _ _ hc.1 (hp a (by simp)),
                 ih hc.2 (fun s hs => hp s (List.mem_cons_of_mem _ hs)) himp⟩

end V2S

/-! ### Claim theorems -/

open V2S

/-- Claim C1 (amended): with `min_duration > 0`, the SRT pass
`fix_segment_timing` produces a monotone, non-overlapping list whose
segments all start at or after 0 and meet the minimum duration. The
VTT/ASS pre-passes guarantee monotone, non-overlapping output with
non-negative starts and strictly positive durations, but NOT the minimum
duration (overlap resolution can compress a cue below `min_duration`). -/
theorem C1_timing_invariants (segs : List Segment) (d : ℚ) (hd : 0 < d) :
    ((fix_segment_timing segs d).Chain' fun a b => a.start ≤ b.start ∧ a.stop ≤ b.start)
    ∧ (∀ s ∈ fix_segment_timing segs d, 0 ≤ s.start ∧ d ≤ s.stop - s.start)
    ∧ ((fix_segments_for_vtt segs d).Chain' fun a b => a.start ≤ b.start ∧ a.stop ≤ b.start)
    ∧ (∀ s ∈ fix_segments_for_vtt segs d, 0 ≤ s.start ∧ s.start < s.stop)
    ∧ ((fix_segments_for_ass segs d).Chain' fun a b => a.start ≤ b.start ∧ a.stop ≤ b.start)
    ∧ (∀ s ∈ fix_segments_for_ass segs d, 0 ≤ s.start ∧ s.start < s.stop) := by
  have hsrt_in : ∀ s ∈ sortByStart (srtNormalizeFilter segs), 0 ≤ s.start :=
    fun s hs => srtNormalizeFilter_start_nonneg s (mem_sortByStart.mp hs)
  obtain ⟨hmem, hchain⟩ :=
    srtOverlapPass_sound d hd (sortByStart (srtNormalizeFilter segs)) 0 (le_refl 0) hsrt_in
  have hvtt_in : ∀ s ∈ sortByStart (vttNormalizeFilter segs d), 0 ≤ s.start :=
    fun s hs => vttNormalizeFilter_start_nonneg s (mem_sortByStart.mp hs)
  obtain ⟨hvmem, hvchain⟩ :=
    vttOverlapPass_sound d hd (sortByStart (vttNormalizeFilter segs d)) 0 (le_refl 0) hvtt_in
  have hsrt_chain : (fix_segment_timing segs d).Chain'
      fun a b => a.start ≤ b.start ∧ a.stop ≤ b.start := by
    refine chain'_strengthen hchain (fun s hs => (hmem s hs).2.2) ?_
    intro a b hR hP
    exact ⟨by linarith, hR⟩
  have hvtt_chain : (fix_segments_for_vtt segs d).Chain'
      fun a b => a.start ≤ b.start ∧ a.stop ≤ b.start := by
    refine chain'_strengthen hvchain (fun s hs => (hvmem s hs).2.2) ?_
    intro a b hR hP
    exact ⟨by linarith, hR⟩
  exact ⟨hsrt_chain, fun s hs => ⟨(hmem s hs).2.1, (hmem s hs).2.2⟩,
         hvtt_chain, fun s hs => ⟨(hvmem s hs).2.1, (hvmem s hs).2.2⟩,
         hvtt_chain, fun s hs => ⟨(hvmem s hs).2.1, (hvmem s hs).2.2⟩⟩

/-- Claim C1, counterexample: on `[(0, 2, "a"), (1.9, 2.1, "b")]` with
`min_duration = 0.5`, the VTT pre-pass first pads segment 2 to
`(1.9, 2.4)`, then overlap resolution shifts its start to `2.0` without
re-checking the duration, leaving a `0.4 s` cue — shorter than
`min_duration`. -/
theorem C1_counterexample :
    ¬ (∀ s ∈ fix_segments_for_vtt
          [⟨0, 2, "a", none, none⟩, ⟨19/10, 21/10, "b", none, none⟩] (1/2),
        (1/2 : ℚ) ≤ s.stop - s.start) := by
  have hfix : fix_segments_for_vtt
      [⟨0, 2, "a", none, none⟩, ⟨19/10, 21/10, "b", none, none⟩] (1/2)
      = [⟨0, 2, "a", none, none⟩, ⟨2, 12/5, "b", none, none⟩] := by
    norm_num [fix_segments_for_vtt, vttNormalizeFilter, sortByStart, vttOverlapPass,
      List.insertionSort, List.orderedInsert, cppTrim, isCppSpace]
    decide
  intro h
  have h2 := h ⟨2, 12/5, "b", none, none⟩ (by rw [hfix]; simp)
  norm_num at h2

/-- Claim C1, witness: the amended invariants at a concrete input. -/
theorem C1_witness :
    (0 : ℚ) < 1/2
    ∧ (((fix_segment_timing [⟨0, 2, "a", none, none⟩] (1/2)).Chain'
          fun a b => a.start ≤ b.start ∧ a.stop ≤ b.start)
      ∧ (∀ s ∈ fix_segment_timing [⟨0, 2, "a", none, none⟩] (1/2),
            0 ≤ s.start ∧ (1/2 : ℚ) ≤ s.stop - s.start)
      ∧ ((fix_segments_for_vtt [⟨0, 2, "a", none, none⟩] (1/2)).Chain'
          fun a b => a.start ≤ b.start ∧ a.stop ≤ b.start)
      ∧ (∀ s ∈ fix_segments_for_vtt [⟨0, 2, "a", none, none⟩] (1/2),
            0 ≤ s.start ∧ s.start < s.stop)
      ∧ ((fix_segments_for_ass [⟨0, 2, "a", none, none⟩] (1/2)).Chain'
          fun a b => a.start ≤ b.start ∧ a.stop ≤ b.start)
      ∧ (∀ s ∈ fix_segments_for_ass [⟨0, 2, "a", none, none⟩] (1/2),
            0 ≤ s.start ∧ s.start < s.stop)) :=
  ⟨by norm_num, C1_timing_invariants [⟨0, 2, "a", none, none⟩] (1/2) (by norm_num)⟩

/-- Claim C2: the timing-correction pass is total (the embedding is a plain
function), its output has exactly one segment per input segment with
non-empty trimmed text — blank segments are dropped, overlap never deletes
a segment — and the empty input yields the empty output. -/
theorem C2_timing_pass_counts (segs : List Segment) (d : ℚ) :
    (fix_segment_timing segs d).length = (segs.filter fun s => cppTrim s.text != "").length
    ∧ fix_segment_timing [] d = [] := by
  constructor
  · rw [fix_segment_timing, length_srtOverlapPass, length_sortByStart, length_srtNormalizeFilter]
  · rfl

/-- Claim C10: every WebVTT output begins with the literal `WEBVTT` line
followed by a blank line; the empty input yields exactly `"WEBVTT\n\n"`,
while the SRT emitter yields `""` for the empty input. -/
theorem C10_vtt_header (segs : List Segment) (d : ℚ) :
    (∃ rest, vtt_format_segments segs d = "WEBVTT\n\n" ++ rest)
    ∧ vtt_format_segments [] d = "WEBVTT\n\n"
    ∧ srt_format_segments [] d = "" := by
  refine ⟨⟨_, rfl⟩, ?_, rfl⟩
  simp [vtt_format_segments, fix_segments_for_vtt, vttNormalizeFilter, sortByStart,
    vttOverlapPass, List.insertionSort, String.join]

/-- Claim C4: with equal lengths the bilingual combiners emit one segment
per index carrying the original's timing, language and confidence and the
text `original ++ "\n" ++ translated`; with mismatched lengths they format
the original list alone (with the formatter's default `min_duration`). -/
theorem C4_bilingual_combiner (A B : List Segment) :
    (A.length = B.length →
      create_bilingual_srt A B = srt_format_segments (combineBilingual A B) (1/2)
      ∧ create_bilingual_vtt A B = vtt_format_segments (combineBilingual A B) (1/2)
      ∧ (combineBilingual A B).length = A.length
      ∧ ∀ i, i < A.length →
          (combineBilingual A B).getD i default
            = { A.getD i default with
                  text := (A.getD i default).text ++ "\n" ++ (B.getD i default).text })
    ∧ (A.length ≠ B.length →
        create_bilingual_srt A B = srt_format_segments A (1/2)
        ∧ create_bilingual_vtt A B = vtt_format_segments A (1/2)) := by
  constructor
  · intro h
    have hlen : (combineBilingual A B).length = A.length := by
      simp [combineBilingual, List.length_zip, h]
    refine ⟨by simp [create_bilingual_srt, h], by simp [create_bilingual_vtt, h], hlen, ?_⟩
    intro i hi
    have hiB : i < B.length := h ▸ hi
    have hiC : i < (combineBilingual A B).length := hlen ▸ hi
    rw [List.getD_eq_getElem _ _ hiC, List.getD_eq_getElem _ _ hi, List.getD_eq_getElem _ _ hiB]
    simp [combineBilingual, List.getElem_zip]
  · intro h
    exact ⟨by simp [create_bilingual_srt, h], by simp [create_bilingual_vtt, h]⟩

/-- Claim C3 (amended): when additionally every single segment's text fits
within `max_chars`, the batch grouper emits only non-empty groups within
both limits, and the concatenation of the groups is exactly the index
sequence `0..n-1` in order. (Without the extra hypothesis an oversized
segment forms its own group exceeding `max_chars`.) -/
theorem C3_batch_grouping (segs : List Segment) (mc ms : ℕ)
    (hne : segs ≠ []) (hmc : 1 ≤ mc) (hms : 1 ≤ ms)
    (hfit : ∀ s ∈ segs, utf8Len s.text ≤ mc) :
    (∀ g ∈ group_indices_by_limits segs mc ms,
        g ≠ [] ∧ g.length ≤ ms
        ∧ (g.map fun idx => utf8Len (segs.getD idx default).text).sum ≤ mc)
    ∧ (group_indices_by_limits segs mc ms).flatten = List.range segs.length := by
  set L := segs.map fun s => utf8Len s.text with hL
  have hLbound : ∀ x ∈ L, x ≤ mc := by
    intro x hx
    rw [hL, List.mem_map] at hx
    obtain ⟨s, hs, rfl⟩ := hx
    exact hfit s hs
  have hflat : (group_indices_by_limits segs mc ms).flatten = List.range segs.length := by
    rw [group_indices_by_limits, gibGo_flatten]
    simp [List.range_eq_range', hL]
  refine ⟨?_, hflat⟩
  intro g hg
  rw [group_indices_by_limits] at hg
  refine ⟨gibGo_ne_nil mc ms L 0 [] 0 g hg,
          gibGo_size mc ms hms L 0 [] 0 (by simp) g hg, ?_⟩
  have hsum := gibGo_sum mc ms L hLbound L 0 [] 0 (by simp) (by simp) (by omega) g hg
  have hmemrange : ∀ idx ∈ g, idx < segs.length := by
    intro idx hidx
    have hmf : idx ∈ (group_indices_by_limits segs mc ms).flatten :=
      List.mem_flatten.mpr ⟨g, by rw [group_indices_by_limits]; exact hg, hidx⟩
    rw [hflat] at hmf
    exact List.mem_range.mp hmf
  have hcongr : (g.map fun idx => utf8Len (segs.getD idx default).text)
      = g.map fun idx => L.getD idx 0 := by
    apply List.map_congr_left
    intro idx hidx
    have hlt := hmemrange idx hidx
    simp [hL, List.getD_eq_getElem?_getD, List.getElem?_map, List.getElem?_eq_getElem hlt]
  rw [hcongr]
  exact hsum

/-- Claim C3, counterexample: a single segment whose text is longer than
`max_chars` still becomes a (singleton) group, whose total byte length
exceeds `max_chars`. -/
theorem C3_counterexample :
    ¬ (∀ g ∈ group_indices_by_limits [⟨0, 1, "ab", none, none⟩] 1 1,
        (g.map fun idx =>
          utf8Len (([⟨0, 1, "ab", none, none⟩] : List Segment).getD idx default).text).sum ≤ 1) := by
  decide

/-- Claim C3, witness: the amended guarantee at a concrete input. -/
theorem C3_witness :
    (([⟨0, 1, "ab", none, none⟩, ⟨1, 2, "cd", none, none⟩] : List Segment) ≠ []
      ∧ 1 ≤ 2 ∧ 1 ≤ 1
      ∧ (∀ s ∈ ([⟨0, 1, "ab", none, none⟩, ⟨1, 2, "cd", none, none⟩] : List Segment),
          utf8Len s.text ≤ 2))
    ∧ ((∀ g ∈ group_indices_by_limits [⟨0, 1, "ab", none, none⟩, ⟨1, 2, "cd", none, none⟩] 2 1,
          g ≠ [] ∧ g.length ≤ 1
          ∧ (g.map fun idx =>
              utf8Len (([⟨0, 1, "ab", none, none⟩, ⟨1, 2, "cd", none, none⟩] : List Segment).getD
                idx default).text).sum ≤ 2)
        ∧ (group_indices_by_limits [⟨0, 1, "ab", none, none⟩, ⟨1, 2, "cd", none, none⟩] 2 1).flatten
            = List.range ([⟨0, 1, "ab", none, none⟩, ⟨1, 2, "cd", none, none⟩] : List Segment).length) :=
  ⟨⟨by simp, by decide, by decide, by decide⟩,
   C3_batch_grouping [⟨0, 1, "ab", none, none⟩, ⟨1, 2, "cd", none, none⟩] 2 1
     (by simp) (by decide) (by decide) (by decide)⟩

/-- Claim C5 (amended): when every step of the greedy scan satisfies the
merge test — duration measured from the FIRST segment's start and text
accumulated over the whole prefix, not per adjacent input pair —
`merge_segments` returns the single folded segment, whose start is the
first input's start and whose end is the last input's end. -/
theorem C5_merge_span (first : Segment) (rest : List Segment) (maxD : ℚ) (maxC : ℕ)
    (h : ∀ j, j < rest.length →
        canMergeSeg maxD maxC (List.foldl combineSeg first (rest.take j)) (rest.getD j default)
          = true) :
    merge_segments (first :: rest) maxD maxC = [List.foldl combineSeg first rest]
    ∧ (List.foldl combineSeg first rest).start = first.start
    ∧ (List.foldl combineSeg first rest).stop = (rest.getLastD first).stop :=
  ⟨mergeGo_all maxD maxC rest first h,
   foldl_combineSeg_start rest first,
   foldl_combineSeg_stop rest first⟩

/-- Claim C5, counterexample: all ADJACENT PAIRS satisfy the three merge
conditions (with `max_duration = 100`, `max_chars = 5`), yet the merge does
not collapse the list into one segment, because the accumulated text
`"ab ab ab"` exceeds `max_chars` at the third step. -/
theorem C5_counterexample :
    (List.Chain' (fun a b : Segment =>
        b.stop - a.start ≤ 100 ∧ utf8Len (a.text ++ " " ++ b.text) ≤ 5 ∧ b.start - a.stop ≤ 2)
      [⟨0, 1, "ab", none, none⟩, ⟨1, 2, "ab", none, none⟩, ⟨2, 3, "ab", none, none⟩])
    ∧ (merge_segments
        [⟨0, 1, "ab", none, none⟩, ⟨1, 2, "ab", none, none⟩, ⟨2, 3, "ab", none, none⟩]
        100 5).length ≠ 1 := by
  constructor
  · rw [List.chain'_cons, List.chain'_cons]
    refine ⟨⟨by norm_num, by decide, by norm_num⟩, ⟨by norm_num, by decide, by norm_num⟩, ?_⟩
    exact List.chain'_singleton _
  · have hmerge : merge_segments
        [⟨0, 1, "ab", none, none⟩, ⟨1, 2, "ab", none, none⟩, ⟨2, 3, "ab", none, none⟩]
        100 5
        = [⟨0, 2, "ab ab", none, none⟩, ⟨2, 3, "ab", none, none⟩] := by
      norm_num [merge_segments, mergeGo, canMergeSeg, combineSeg, utf8Len]
      decide
    rw [hmerge]
    decide

/-- Claim C5, witness: the amended statement at a concrete two-segment
input on which every scan step passes the merge test. -/
theorem C5_witness :
    (∀ j, j < ([⟨1, 2, "b", none, none⟩] : List Segment).length →
        canMergeSeg 100 10
          (List.foldl combineSeg ⟨0, 1, "a", none, none⟩
            (([⟨1, 2, "b", none, none⟩] : List Segment).take j))
          (([⟨1, 2, "b", none, none⟩] : List Segment).getD j default) = true)
    ∧ (merge_segments [⟨0, 1, "a", none, none⟩, ⟨1, 2, "b", none, none⟩] 100 10
        = [List.foldl combineSeg ⟨0, 1, "a", none, none⟩ [⟨1, 2, "b", none, none⟩]]
      ∧ (List.foldl combineSeg ⟨0, 1, "a", none, none⟩ [⟨1, 2, "b", none, none⟩]).start
          = (⟨0, 1, "a", none, none⟩ : Segment).start
      ∧ (List.foldl combineSeg ⟨0, 1, "a", none, none⟩ [⟨1, 2, "b", none, none⟩]).stop
          = (([⟨1, 2, "b", none, none⟩] : List Segment).getLastD ⟨0, 1, "a", none, none⟩).stop) := by
  have hyp : ∀ j, j < ([⟨1, 2, "b", none, none⟩] : List Segment).length →
      canMergeSeg 100 10
        (List.foldl combineSeg ⟨0, 1, "a", none, none⟩
          (([⟨1, 2, "b", none, none⟩] : List Segment).take j))
        (([⟨1, 2, "b", none, none⟩] : List Segment).getD j default) = true := by
    intro j hj
    have hj0 : j = 0 := by simp at hj; omega
    subst hj0
    simp only [List.take_zero, List.foldl_nil, List.getD_cons_zero, canMergeSeg,
      Bool.and_eq_true, decide_eq_true_eq]
    refine ⟨⟨by norm_num, by decide⟩, by norm_num⟩
  exact ⟨hyp, C5_merge_span ⟨0, 1, "a", none, none⟩ [⟨1, 2, "b", none, none⟩] 100 10 hyp⟩

/-- Claim C6 (amended): for every segment list whose end times are
non-decreasing (in particular any chronologically ordered list),
`merge_segments` is idempotent: re-merging its output with the same
thresholds changes nothing. (With decreasing end times a later segment can
shrink a block's end below the point that blocked a merge, so a second
pass can merge more — see the counterexample.) -/
theorem C6_merge_idempotent (segs : List Segment) (maxD : ℚ) (maxC : ℕ)
    (h : segs.Chain' fun a b => a.stop ≤ b.stop) :
    merge_segments (merge_segments segs maxD maxC) maxD maxC
      = merge_segments segs maxD maxC := by
  cases segs with
  | nil => rfl
  | cons s rest =>
      obtain ⟨hne, _, _, _, hchainF⟩ := mergeGo_struct maxD maxC rest s h
      show merge_segments (mergeGo maxD maxC s rest) maxD maxC = mergeGo maxD maxC s rest
      cases hmg : mergeGo maxD maxC s rest with
      | nil => exact absurd hmg hne
      | cons b bs =>
          rw [hmg] at hchainF
          show merge_segments (b :: bs) maxD maxC = b :: bs
          rw [merge_segments]
          exact mergeGo_no_merge maxD maxC bs b hchainF

/-- Claim C6, counterexample: on `[(0,1,"a"), (2,11,"b"), (3,4,"c")]` with
`max_duration = 10`, `max_chars = 100`, the first pass produces
`[(0,1,"a"), (2,4,"b c")]` (the 0→11 span blocked the first merge), and a
second pass merges those into one segment: the function is not idempotent
on this input. -/
theorem C6_counterexample :
    merge_segments
        (merge_segments
          [⟨0, 1, "a", none, none⟩, ⟨2, 11, "b", none, none⟩, ⟨3, 4, "c", none, none⟩] 10 100)
        10 100
      ≠ merge_segments
          [⟨0, 1, "a", none, none⟩, ⟨2, 11, "b", none, none⟩, ⟨3, 4, "c", none, none⟩] 10 100 := by
  have h1 : merge_segments
      [⟨0, 1, "a", none, none⟩, ⟨2, 11, "b", none, none⟩, ⟨3, 4, "c", none, none⟩] 10 100
      = [⟨0, 1, "a", none, none⟩, ⟨2, 4, "b c", none, none⟩] := by
    norm_num [merge_segments, mergeGo, canMergeSeg, combineSeg, utf8Len]
    decide
  have h2 : merge_segments [⟨0, 1, "a", none, none⟩, ⟨2, 4, "b c", none, none⟩] 10 100
      = [⟨0, 4, "a b c", none, none⟩] := by
    norm_num [merge_segments, mergeGo, canMergeSeg, combineSeg, utf8Len]
    decide
  rw [h1, h2]
  intro hcontra
  exact absurd (congrArg List.length hcontra) (by decide)

/-- Claim C6, witness: idempotence at a concrete input with non-decreasing
end times. -/
theorem C6_witness :
    (([⟨0, 1, "a", none, none⟩, ⟨1, 2, "b", none, none⟩] : List Segment).Chain'
        fun a b => a.stop ≤ b.stop)
    ∧ merge_segments
        (merge_segments [⟨0, 1, "a", none, none⟩, ⟨1, 2, "b", none, none⟩] 100 10) 100 10
      = merge_segments [⟨0, 1, "a", none, none⟩, ⟨1, 2, "b", none, none⟩] 100 10 := by
  have hch : ([⟨0, 1, "a", none, none⟩, ⟨1, 2, "b", none, none⟩] : List Segment).Chain'
      (fun a b => a.stop ≤ b.stop) := by
    rw [List.chain'_cons]
    exact ⟨by norm_num, List.chain'_singleton _⟩
  exact ⟨hch, C6_merge_idempotent [⟨0, 1, "a", none, none⟩, ⟨1, 2, "b", none, none⟩] 100 10 hch⟩

/-- Claim C7: in batch mode the OpenAI translator returns exactly one
output segment per input segment, each keeping its input's start and end;
within every batch group, positions at or past the translated response's
length keep the segment's original text; no response shape aborts the job
(the embedding is a total function of the response oracle `tr`). -/
theorem C7_batch_translation (tr : List String → List String) (segs : List Segment)
    (mc ms : ℕ) :
    (translate_segments_batch tr segs mc ms).length = segs.length
    ∧ (∀ i, i < segs.length →
        ((translate_segments_batch tr segs mc ms).getD i default).start
            = (segs.getD i default).start
        ∧ ((translate_segments_batch tr segs mc ms).getD i default).stop
            = (segs.getD i default).stop)
    ∧ (∀ g ∈ group_indices_by_limits segs mc (max 1 ms), ∀ i, i < g.length →
        (tr (g.map fun idx => (segs.getD idx default).text)).length ≤ i →
        ((translate_segments_batch tr segs mc ms).getD (g.getD i 0) default).text
            = (segs.getD (g.getD i 0) default).text) := by
  have hflat : (group_indices_by_limits segs mc (max 1 ms)).flatten = List.range segs.length := by
    rw [group_indices_by_limits, gibGo_flatten]
    simp [List.range_eq_range']
  have hnd : (group_indices_by_limits segs mc (max 1 ms)).flatten.Nodup := by
    rw [hflat]; exact List.nodup_range segs.length
  have hbound : ∀ x ∈ (group_indices_by_limits segs mc (max 1 ms)).flatten,
      x < (List.replicate segs.length (default : Segment)).length := by
    intro x hx
    rw [List.length_replicate]
    rw [hflat] at hx
    exact List.mem_range.mp hx
  have hspec := foldl_writeGroup_spec segs
    (fun g => tr (g.map fun idx => (segs.getD idx default).text))
    (group_indices_by_limits segs mc (max 1 ms))
    (List.replicate segs.length default) hnd hbound
  have hdef : translate_segments_batch tr segs mc ms
      = (group_indices_by_limits segs mc (max 1 ms)).foldl
          (fun acc g =>
            writeGroup segs (tr (g.map fun idx => (segs.getD idx default).text)) g 0 acc)
          (List.replicate segs.length default) := rfl
  refine ⟨?_, ?_, ?_⟩
  · rw [hdef, foldl_writeGroup_length, List.length_replicate]
  · intro i hi
    have hiF : i ∈ (group_indices_by_limits segs mc (max 1 ms)).flatten := by
      rw [hflat]; exact List.mem_range.mpr hi
    obtain ⟨g, hgG, higr⟩ := List.mem_flatten.mp hiF
    obtain ⟨j, hj, hgj⟩ := List.getElem_of_mem higr
    have hgetD : g.getD j 0 = i := by rw [List.getD_eq_getElem g 0 hj]; exact hgj
    have hval := hspec g hgG j hj
    rw [hgetD] at hval
    simp only at hval
    rw [hdef, hval]
    exact ⟨rfl, rfl⟩
  · intro g hgG i hi hlen
    have hval := hspec g hgG i hi
    simp only at hval
    rw [hdef, hval]
    simpa using List.getD_eq_default _ _ hlen

/-- Claim C7, witness: the contract at a concrete input whose single batch
response is shorter than the group. -/
theorem C7_witness :
    0 < ([⟨0, 1, "ab", none, none⟩, ⟨1, 2, "cd", none, none⟩] : List Segment).length
    ∧ (((translate_segments_batch (fun _ => ["X"])
          [⟨0, 1, "ab", none, none⟩, ⟨1, 2, "cd", none, none⟩] 10 5).getD 0 default).start
        = (([⟨0, 1, "ab", none, none⟩, ⟨1, 2, "cd", none, none⟩] : List Segment).getD
            0 default).start
      ∧ ((translate_segments_batch (fun _ => ["X"])
          [⟨0, 1, "ab", none, none⟩, ⟨1, 2, "cd", none, none⟩] 10 5).getD 0 default).stop
        = (([⟨0, 1, "ab", none, none⟩, ⟨1, 2, "cd", none, none⟩] : List Segment).getD
            0 default).stop) :=
  ⟨by decide,
   (C7_batch_translation (fun _ => ["X"])
     [⟨0, 1, "ab", none, none⟩, ⟨1, 2, "cd", none, none⟩] 10 5).2.1 0 (by decide)⟩

/-- Claim C9: for every non-negative time, `format_ass_time` has the shape
`H:MM:SS.cc` — hours printed without padding, minutes/seconds/centiseconds
each exactly two zero-padded digits; and the ASS escaper rewrites every
newline (and carriage return) to the literal two-character sequence `\N`,
so the emitted cue text contains no real newline. -/
theorem C9_ass_time_and_escape :
    (∀ seconds : ℚ, 0 ≤ seconds →
      ∃ h m s c : ℕ, m < 60 ∧ s < 60 ∧ c < 100
        ∧ format_ass_time seconds
            = Nat.repr h ++ ":" ++ pad2 m ++ ":" ++ pad2 s ++ "." ++ pad2 c
        ∧ (pad2 m).length = 2 ∧ (pad2 s).length = 2 ∧ (pad2 c).length = 2)
    ∧ (∀ text : String,
        (ass_escape_text text).data
          = (text.data.map fun ch =>
              if ch = '\n' || ch = '\r' then ['\\', 'N'] else [ch]).flatten
        ∧ '\n' ∉ (ass_escape_text text).data
        ∧ '\r' ∉ (ass_escape_text text).data) := by
  constructor
  · intro seconds hsec
    have hclamp : (if seconds < 0 then 0 else seconds) = seconds := if_neg (not_lt.mpr hsec)
    have h1 := ratFloorNat_spec (show (0:ℚ) ≤ seconds / 3600 by positivity)
    set h := ratFloorNat (seconds / 3600) with hh
    have hge : (h : ℚ) * 3600 ≤ seconds := by
      rw [← le_div_iff₀ (by norm_num : (0:ℚ) < 3600)]
      exact h1.1
    have hlt3600 : seconds - (h : ℚ) * 3600 < 3600 := by
      have := h1.2
      rw [div_lt_iff₀ (by norm_num : (0:ℚ) < 3600)] at this
      linarith
    have hA0 : (0:ℚ) ≤ seconds - (h : ℚ) * 3600 := by linarith
    have h2 := ratFloorNat_spec (show (0:ℚ) ≤ (seconds - (h : ℚ) * 3600) / 60 by positivity)
    set m := ratFloorNat ((seconds - (h : ℚ) * 3600) / 60) with hm
    have hm60 : m < 60 := by
      have hq : ((m : ℕ) : ℚ) < 60 := by
        refine lt_of_le_of_lt h2.1 ?_
        rw [div_lt_iff₀ (by norm_num : (0:ℚ) < 60)]
        linarith
      exact_mod_cast hq
    have hmle : (m : ℚ) * 60 ≤ seconds - (h : ℚ) * 3600 := by
      rw [← le_div_iff₀ (by norm_num : (0:ℚ) < 60)]
      exact h2.1
    have hrem0 : (0:ℚ) ≤ seconds - (h : ℚ) * 3600 - (m : ℚ) * 60 := by linarith
    have hremlt : seconds - (h : ℚ) * 3600 - (m : ℚ) * 60 < 60 := by
      have := h2.2
      rw [div_lt_iff₀ (by norm_num : (0:ℚ) < 60)] at this
      linarith
    have h3 := ratFloorNat_spec hrem0
    set sN := ratFloorNat (seconds - (h : ℚ) * 3600 - (m : ℚ) * 60) with hsN
    have hs60 : sN < 60 := by
      have hq : ((sN : ℕ) : ℚ) < 60 := lt_of_le_of_lt h3.1 hremlt
      exact_mod_cast hq
    have hfrac0 : (0:ℚ) ≤ (seconds - (h : ℚ) * 3600 - (m : ℚ) * 60 - (sN : ℚ)) * 100 := by
      have := h3.1
      nlinarith
    have hfraclt : (seconds - (h : ℚ) * 3600 - (m : ℚ) * 60 - (sN : ℚ)) * 100 < 100 := by
      have := h3.2
      nlinarith
    have h4 := ratFloorNat_spec hfrac0
    set c := ratFloorNat ((seconds - (h : ℚ) * 3600 - (m : ℚ) * 60 - (sN : ℚ)) * 100) with hc
    have hc100 : c < 100 := by
      have hq : ((c : ℕ) : ℚ) < 100 := lt_of_le_of_lt h4.1 hfraclt
      exact_mod_cast hq
    refine ⟨h, m, sN, c, hm60, hs60, hc100, ?_,
      pad2_length m (by omega), pad2_length sN (by omega), pad2_length c hc100⟩
    rw [format_ass_time]
    simp only [hclamp]
  · intro text
    have hdata := ass_escape_data text.data ""
    have hflat : (ass_escape_text text).data
        = (text.data.map fun ch =>
            if ch = '\n' || ch = '\r' then ['\\', 'N'] else [ch]).flatten := by
      rw [ass_escape_text, hdata]
      rfl
    refine ⟨hflat, ?_, ?_⟩
    · intro hmem
      rw [hflat, List.mem_flatten] at hmem
      obtain ⟨chunk, hchunk, hch⟩ := hmem
      rw [List.mem_map] at hchunk
      obtain ⟨ch0, _, rfl⟩ := hchunk
      by_cases hc0 : (ch0 = '\n' || ch0 = '\r') = true
      · rw [if_pos hc0] at hch
        exact absurd hch (by decide)
      · rw [if_neg hc0] at hch
        simp only [Bool.or_eq_true, decide_eq_true_eq, not_or] at hc0
        rw [List.mem_singleton] at hch
        exact hc0.1 hch.symm
    · intro hmem
      rw [hflat, List.mem_flatten] at hmem
      obtain ⟨chunk, hchunk, hch⟩ := hmem
      rw [List.mem_map] at hchunk
      obtain ⟨ch0, _, rfl⟩ := hchunk
      by_cases hc0 : (ch0 = '\n' || ch0 = '\r') = true
      · rw [if_pos hc0] at hch
        exact absurd hch (by decide)
      · rw [if_neg hc0] at hch
        simp only [Bool.or_eq_true, decide_eq_true_eq, not_or] at hc0
        rw [List.mem_singleton] at hch
        exact hc0.2 hch.symm

/-- Claim C9, witness: the shape guarantee applied at `1:01:01.25` and the
escape guarantee applied to a concrete multi-line text. -/
theorem C9_witness :
    (0:ℚ) ≤ 3661 + 1/4
    ∧ (∃ h m s c : ℕ, m < 60 ∧ s < 60 ∧ c < 100
        ∧ format_ass_time (3661 + 1/4)
            = Nat.repr h ++ ":" ++ pad2 m ++ ":" ++ pad2 s ++ "." ++ pad2 c
        ∧ (pad2 m).length = 2 ∧ (pad2 s).length = 2 ∧ (pad2 c).length = 2)
    ∧ ((ass_escape_text "a\nb").data
          = (("a\nb" : String).data.map fun ch =>
              if ch = '\n' || ch = '\r' then ['\\', 'N'] else [ch]).flatten
        ∧ '\n' ∉ (ass_escape_text "a\nb").data
        ∧ '\r' ∉ (ass_escape_text "a\nb").data) :=
  ⟨by norm_num,
   C9_ass_time_and_escape.1 (3661 + 1/4) (by norm_num),
   C9_ass_time_and_escape.2 "a\nb"⟩

/-- Claim C4, witness: the equal-length contract at a concrete index. -/
theorem C4_witness :
    ([⟨0, 1, "Hi", some "en", none⟩] : List Segment).length
        = ([⟨0, 2, "Hola", some "es", none⟩] : List Segment).length
    ∧ (create_bilingual_srt [⟨0, 1, "Hi", some "en", none⟩] [⟨0, 2, "Hola", some "es", none⟩]
        = srt_format_segments
            (combineBilingual [⟨0, 1, "Hi", some "en", none⟩] [⟨0, 2, "Hola", some "es", none⟩])
            (1/2)
      ∧ create_bilingual_vtt [⟨0, 1, "Hi", some "en", none⟩] [⟨0, 2, "Hola", some "es", none⟩]
        = vtt_format_segments
            (combineBilingual [⟨0, 1, "Hi", some "en", none⟩] [⟨0, 2, "Hola", some "es", none⟩])
            (1/2)
      ∧ (combineBilingual [⟨0, 1, "Hi", some "en", none⟩]
          [⟨0, 2, "Hola", some "es", none⟩]).length
          = ([⟨0, 1, "Hi", some "en", none⟩] : List Segment).length
      ∧ ∀ i, i < ([⟨0, 1, "Hi", some "en", none⟩] : List Segment).length →
          (combineBilingual [⟨0, 1, "Hi", some "en", none⟩]
            [⟨0, 2, "Hola", some "es", none⟩]).getD i default
            = { ([⟨0, 1, "Hi", some "en", none⟩] : List Segment).getD i default with
                  text := (([⟨0, 1, "Hi", some "en", none⟩] : List Segment).getD
                      i default).text
                    ++ "\n"
                    ++ (([⟨0, 2, "Hola", some "es", none⟩] : List Segment).getD
                      i default).text }) :=
  ⟨rfl,
   (C4_bilingual_combiner [⟨0, 1, "Hi", some "en", none⟩] [⟨0, 2, "Hola", some "es", none⟩]).1 rfl⟩

/-- Claim C8: on the fixed input `[(0, 2, "Hello"), (1.5, 3, "World")]` with
`min_duration = 0.5` the SRT emitter produces exactly two blocks, indexed 1
and 2, with block 2's start pushed to `00:00:02,000`; the corrected cues do
not overlap; the empty input yields the empty string. -/
theorem C8_srt_fixed_example :
    srt_format_segments [⟨0, 2, "Hello", none, none⟩, ⟨3/2, 3, "World", none, none⟩] (1/2)
      = "1\n00:00:00,000 --> 00:00:02,000\nHello\n\n2\n00:00:02,000 --> 00:00:03,000\nWorld\n"
    ∧ fix_segment_timing [⟨0, 2, "Hello", none, none⟩, ⟨3/2, 3, "World", none, none⟩] (1/2)
      = [⟨0, 2, "Hello", none, none⟩, ⟨2, 3, "World", none, none⟩]
    ∧ (∀ d : ℚ, srt_format_segments [] d = "") := by
  have hfix : fix_segment_timing [⟨0, 2, "Hello", none, none⟩, ⟨3/2, 3, "World", none, none⟩] (1/2)
      = [⟨0, 2, "Hello", none, none⟩, ⟨2, 3, "World", none, none⟩] := by
    norm_num [fix_segment_timing, srtNormalizeFilter, sortByStart, srtOverlapPass,
      List.insertionSort, List.orderedInsert, cppTrim, isCppSpace]
    decide
  refine ⟨?_, hfix, fun d => rfl⟩
  rw [srt_format_segments]
  norm_num [hfix, format_segment, format_srt_time, ratFloorNat, List.range_succ]
  simp
  norm_num [pad2, pad3]
  decide
